import Mathlib

/-
  Verification of the signal-processing core of the HC12 RTL-SDR demodulator.

  The development shallowly embeds the Rust sources:
    * `src/hc12_decoder.rs` : chirp-spread-spectrum decoder (configuration,
      preamble detection, symbol extraction, symbol-to-byte packing, decode).
    * `src/demodulator.rs`  : GFSK path (FM discriminator phase unwrapping,
      bit timing recovery, byte assembly).
    * `src/rtlsdr.rs`       : sample-queue construction (crossbeam channel).

  Machine integers (u8/u16/u32/usize) are modelled as `Nat` with explicit
  `% 2^w` exactly where the Rust arithmetic can wrap; `f32` values are
  modelled as real numbers (`ℝ`) where irrational constants (π, cos/sin)
  occur, and as rationals (`ℚ`) where all arithmetic is field arithmetic
  and decidable comparison, so the model stays executable.  The FFT of the
  `rustfft` crate is an external library call on floats; it is carried as
  an uninterpreted function parameter, while everything the sources do
  around it (dechirping, peak masking, windowing) is modelled concretely.
-/

namespace HC12

/-! ## Chirp decoder configuration (`src/hc12_decoder.rs`)

`HC12Decoder` holds `spreading_factor : u8`, `bandwidth : u32` and the
derived `fft_size : usize`.  The `fft_planner` field is an internal cache
of the FFT library with no observable state and is not part of the model. -/

structure HC12Decoder where
  spreading_factor : Nat
  bandwidth : Nat
  fft_size : Nat
  deriving Repr, DecidableEq

/-- Model of `HC12Decoder::new`: `fft_size = 1 << spreading_factor`; the
constructor stores the given spreading factor without clamping it.
(The Rust shift `1usize << sf` is faithfully `2 ^ sf` for `sf < 64`.) -/
def HC12Decoder.new (sf bw : Nat) : HC12Decoder :=
  { spreading_factor := sf, bandwidth := bw, fft_size := 2 ^ sf }

/-- Model of `HC12Decoder::set_spreading_factor`: `sf.clamp(7, 12)` and the
matching `fft_size` update. -/
def HC12Decoder.set_spreading_factor (d : HC12Decoder) (sf : Nat) : HC12Decoder :=
  let c := min (max sf 7) 12
  { d with spreading_factor := c, fft_size := 2 ^ c }

/-- Model of `HC12Decoder::set_bandwidth`. -/
def HC12Decoder.set_bandwidth (d : HC12Decoder) (bw : Nat) : HC12Decoder :=
  { d with bandwidth := bw }

/-! ## Symbol-to-byte packing (`symbols_to_bytes`, `pack_symbols_to_bytes`)

Symbols are `u16` values; the byte-packing arithmetic (`& mask`, `>>`,
`& 0xFF`) never wraps on `u16`, so symbols are modelled as plain `Nat`.
The SF = 7 packer uses a `u32` bit accumulator that genuinely wraps after
enough symbols (`bit_buffer << 7` discards high bits), hence the explicit
`% 2 ^ 32`. -/

/-- Model of the `while bit_count >= 8` drain loop inside
`pack_symbols_to_bytes`: repeatedly decrement the bit count by 8 and emit
`(bit_buffer >> bit_count) & 0xFF`.  The buffer itself is not changed by
the loop; the final bit count (`< 8`) is returned alongside the bytes. -/
def drainLoop (buffer : Nat) : Nat → List Nat × Nat
  | c + 8 =>
    let byte := buffer / 2 ^ c % 256
    let r := drainLoop buffer c
    (byte :: r.1, r.2)
  | c => ([], c)

/-- Model of the `for &symbol in symbols` loop of `pack_symbols_to_bytes`:
shift the `u32` accumulator left by `sf`, or in the masked symbol
(`symbol & ((1 << sf) - 1)`), bump the bit count, drain complete bytes.
Returns (emitted bytes, final accumulator, final bit count). -/
def packLoop (sf : Nat) : List Nat → Nat → Nat → List Nat × Nat × Nat
  | [], buffer, cnt => ([], buffer, cnt)
  | s :: rest, buffer, cnt =>
    let buffer1 := (buffer * 2 ^ sf + s % 2 ^ sf) % 2 ^ 32
    let d := drainLoop buffer1 (cnt + sf)
    let r := packLoop sf rest buffer1 d.2
    (d.1 ++ r.1, r.2)

/-- Model of `HC12Decoder::pack_symbols_to_bytes`: run the symbol loop from
an empty accumulator, then emit the trailing padded byte
`(bit_buffer << (8 - bit_count)) & 0xFF` when bits remain. -/
def pack_symbols_to_bytes (symbols : List Nat) (sf : Nat) : List Nat :=
  let r := packLoop sf symbols 0 0
  r.1 ++ (if 0 < r.2.2 then [r.2.1 * 2 ^ (8 - r.2.2) % 2 ^ 32 % 256] else [])

/-- Model of `HC12Decoder::symbols_to_bytes`: dispatch on the spreading
factor exactly as the Rust `match`.  SF 8 keeps the low byte, SF 9..12
takes `(s >> (sf - 8)) & 0xFF`, SF 7 packs bits, anything else logs to
stderr and yields no bytes. -/
def symbols_to_bytes (sf : Nat) (symbols : List Nat) : List Nat :=
  if sf = 7 then pack_symbols_to_bytes symbols 7
  else if sf = 8 then symbols.map (fun s => s % 256)
  else if 9 ≤ sf ∧ sf ≤ 12 then symbols.map (fun s => s / 2 ^ (sf - 8) % 256)
  else []

/-! ### Specification-side packing, in the words of the spec

The spec describes SF = 7 packing through a bit string: the low 7 bits of
each symbol are appended MSB-first, complete 8-bit groups are drained in
order, and a final group of `k < 8` bits is emitted left-shifted by
`8 - k`.  We realise that description literally with bit lists and prove
it equal to the accumulator implementation above. -/

/-- The `n` low bits of `s`, most significant first. -/
def bitsMSB : Nat → Nat → List Bool
  | 0, _ => []
  | n + 1, s => s.testBit n :: bitsMSB n s

/-- Value of a bit string read most-significant-bit first. -/
def bitsVal (l : List Bool) : Nat :=
  l.foldl (fun acc b => 2 * acc + b.toNat) 0

/-- Split a bit string into its complete 8-bit groups (as byte values, in
order) and the remaining short tail. -/
def chunkFull : List Bool → List Nat × List Bool
  | b0 :: b1 :: b2 :: b3 :: b4 :: b5 :: b6 :: b7 :: rest =>
    let r := chunkFull rest
    (bitsVal [b0, b1, b2, b3, b4, b5, b6, b7] :: r.1, r.2)
  | l => ([], l)

/-- Spec-side byte stream of a bit string: the complete 8-bit groups, then
the final group of `k < 8` bits left-shifted by `8 - k` (zero padding). -/
def chunkBytes (l : List Bool) : List Nat :=
  (chunkFull l).1 ++
    (if (chunkFull l).2.isEmpty then []
     else [bitsVal (chunkFull l).2 * 2 ^ (8 - (chunkFull l).2.length)])

/-- Spec-side symbol-to-byte mapping, following the spec text for each
spreading factor in 7..12. -/
def specSymbolsToBytes (sf : Nat) (symbols : List Nat) : List Nat :=
  if sf = 8 then symbols.map (fun s => s % 256)
  else if 9 ≤ sf ∧ sf ≤ 12 then symbols.map (fun s => s / 2 ^ (sf - 8) % 256)
  else if sf = 7 then chunkBytes (symbols.flatMap (fun s => bitsMSB 7 s))
  else []

/-! ## Complex samples and the chirp decode pipeline (`src/hc12_decoder.rs`)

`Complex32` (a pair of `f32`) is modelled over `ℝ`.  The forward FFT of
the `rustfft` crate is an external floating-point library call; it enters
the model as an uninterpreted function parameter `F`.  Everything the
source itself computes — preamble energy scan, dechirp multiplication,
zero padding, peak-bin search, bit-width masking — is modelled concretely. -/

structure C32 where
  re : ℝ
  im : ℝ

/-- `num_complex::Complex32::norm_sqr`. -/
noncomputable def C32.normSq (c : C32) : ℝ := c.re * c.re + c.im * c.im

/-- Complex multiplication, as in the dechirping step `s * d`. -/
noncomputable def C32.mul (a b : C32) : C32 :=
  ⟨a.re * b.re - a.im * b.im, a.re * b.im + a.im * b.re⟩

/-- The offsets visited by `detect_preamble`:
`(0..len.saturating_sub(window_size)).step_by(window_size / 4)`, that is,
the multiples of `window_size / 4` strictly below `len - window_size`.
(When the step is zero — `window_size < 4` — Rust `step_by(0)` panics; the
model then yields no offsets, exploiting `Nat` division by zero.) -/
def scanOffsets (len window_size : Nat) : List Nat :=
  let bound := len - window_size
  let step := window_size / 4
  (List.range ((bound + step - 1) / step)).map (fun k => k * step)

/-- Energy of the window starting at `offset`:
`samples[offset..offset + window_size.min(len - offset)]`, summing
`norm_sqr` over it. -/
noncomputable def windowPower (samples : List C32) (offset window_size : Nat) : ℝ :=
  (((samples.drop offset).take (min window_size (samples.length - offset))).map
    C32.normSq).sum

/-- The running-maximum fold of `detect_preamble`: starting from
`(best_offset, max_power) = (0, 0.0)`, update on strict improvement
(`power > max_power`). -/
noncomputable def peakFold (p : Nat → ℝ) (l : List Nat) (init : Nat × ℝ) : Nat × ℝ :=
  l.foldl (fun best off => if best.2 < p off then (off, p off) else best) init

/-- Model of `HC12Decoder::detect_preamble`. -/
noncomputable def detect_preamble (window_size : Nat) (samples : List C32) : Nat :=
  (peakFold (fun off => windowPower samples off window_size)
    (scanOffsets samples.length window_size) (0, 0)).1

/-- Model of `HC12Decoder::generate_downchirp`: unit-magnitude samples of
the conjugated chirp `phase = 2π(0.5 t - 0.5 t²)`, `t = i / n`, `n = 2^sf`. -/
noncomputable def generate_downchirp (sf : Nat) : List C32 :=
  (List.range (2 ^ sf)).map (fun i =>
    let t : ℝ := (i : ℝ) / ((2 ^ sf : Nat) : ℝ)
    let phase := 2 * Real.pi * (0.5 * t - 0.5 * t * t)
    ⟨Real.cos phase, -Real.sin phase⟩)

/-- Model of `HC12Decoder::fft_peak_detect`: pad (or truncate) the input to
the FFT size `2^sf` (`buffer.resize`), apply the library FFT `F`, find the
bin of maximum squared magnitude by strict improvement from
`(peak_bin, max_magnitude) = (0, 0.0)`, and mask the bin index to `sf`
bits (`(peak_bin as u16) & ((1u16 << sf) - 1)`; the mask is `% 2^sf`,
which agrees with the `u16` arithmetic for every `sf ≤ 12`). -/
noncomputable def fft_peak_detect (sf : Nat) (F : List C32 → List C32)
    (samples : List C32) : Nat :=
  let buffer := samples.take (2 ^ sf)
    ++ List.replicate (2 ^ sf - samples.length) (⟨0, 0⟩ : C32)
  let out := F buffer
  (out.enum.foldl
    (fun best p => if best.2 < C32.normSq p.2 then (p.1, C32.normSq p.2) else best)
    (0, (0 : ℝ))).1 % 2 ^ sf

/-- Model of the window loop of `HC12Decoder::extract_symbols`:
`while pos + symbol_size <= samples.len()`, dechirp one window against the
downchirp (hoisted before the loop in the source; recomputed here, with
the same value, as the function is pure) and decode its peak, advancing by
exactly `symbol_size = 2^sf`. -/
noncomputable def extract_symbols (sf : Nat) (F : List C32 → List C32)
    (samples : List C32) (pos : Nat) : List Nat :=
  if h : pos + 2 ^ sf ≤ samples.length then
    let symbol_samples := (samples.drop pos).take (2 ^ sf)
    let dechirped := List.zipWith C32.mul symbol_samples (generate_downchirp sf)
    fft_peak_detect sf F dechirped :: extract_symbols sf F samples (pos + 2 ^ sf)
  else []
  termination_by samples.length - pos
  decreasing_by
    have hp : 0 < 2 ^ sf := Nat.pos_pow_of_pos sf (by norm_num)
    omega

/-- Model of `HC12Decoder::estimate_snr`: mean of per-sample power, then
the variance of power around it; `10 * log10(mean / sqrt(variance))` when
the variance is positive, else `0`. -/
noncomputable def estimate_snr (samples : List C32) : ℝ :=
  if samples.isEmpty then 0
  else
    let mean_power := ((samples.map C32.normSq).sum) / (samples.length : ℝ)
    let variance :=
      ((samples.map (fun c => (C32.normSq c - mean_power) ^ 2)).sum) /
        (samples.length : ℝ)
    if 0 < variance then 10 * Real.logb 10 (mean_power / Real.sqrt variance)
    else 0

/-- The per-call decode result (`DecodeResult`). -/
structure DecodeResult where
  symbols : List Nat
  bytes : List Nat
  snr : ℝ

/-- Model of `HC12Decoder::decode`.  An empty block fails with
`"No samples provided"` before anything else runs; otherwise the pipeline
is preamble sync, symbol extraction, byte packing and SNR estimation.  The
source method takes `&mut self` only for the FFT planner cache; it never
writes the configuration fields, so the decoder state is returned
unchanged in both branches. -/
noncomputable def decode (d : HC12Decoder) (F : List C32 → List C32)
    (samples : List C32) : Except String DecodeResult × HC12Decoder :=
  if samples.isEmpty then (.error "No samples provided", d)
  else
    let sync_offset := detect_preamble d.fft_size samples
    let symbols := extract_symbols d.spreading_factor F samples sync_offset
    let bytes := symbols_to_bytes d.spreading_factor symbols
    let snr := estimate_snr samples
    (.ok ⟨symbols, bytes, snr⟩, d)

/-! ## GFSK demodulator (`src/demodulator.rs`)

The FM discriminator's phase unwrapping works on `f32` angles; it is
modelled over `ℝ`, with `atan2(im, re)` rendered as `Complex.arg`.  The
bit-timing and byte-assembly stages use only field arithmetic and order
comparisons, so they are modelled executably over `ℚ`. -/

/-- `sample.im.atan2(sample.re)`: the principal-value phase angle. -/
noncomputable def sampPhase (c : C32) : ℝ := Complex.arg ⟨c.re, c.im⟩

/-- Model of `while phase_diff > PI { phase_diff -= 2.0 * PI }`. -/
noncomputable def wrapDown (x : ℝ) : ℝ :=
  if h : Real.pi < x then wrapDown (x - 2 * Real.pi) else x
  termination_by (⌈(x - Real.pi) / (2 * Real.pi)⌉).toNat
  decreasing_by
    have hπ : (0 : ℝ) < Real.pi := Real.pi_pos
    have harg : (x - 2 * Real.pi - Real.pi) / (2 * Real.pi)
        = (x - Real.pi) / (2 * Real.pi) - 1 := by
      field_simp
      ring
    have hceil : ⌈(x - 2 * Real.pi - Real.pi) / (2 * Real.pi)⌉
        = ⌈(x - Real.pi) / (2 * Real.pi)⌉ - 1 := by
      rw [harg]
      exact_mod_cast Int.ceil_sub_int ((x - Real.pi) / (2 * Real.pi)) 1
    have hpos : (0 : ℝ) < (x - Real.pi) / (2 * Real.pi) := by
      apply div_pos <;> linarith
    have h1 : 1 ≤ ⌈(x - Real.pi) / (2 * Real.pi)⌉ := Int.ceil_pos.mpr hpos
    rw [hceil]
    omega

/-- Model of `while phase_diff < -PI { phase_diff += 2.0 * PI }`. -/
noncomputable def wrapUp (x : ℝ) : ℝ :=
  if h : x < -Real.pi then wrapUp (x + 2 * Real.pi) else x
  termination_by (⌈(-Real.pi - x) / (2 * Real.pi)⌉).toNat
  decreasing_by
    have hπ : (0 : ℝ) < Real.pi := Real.pi_pos
    have harg : (-Real.pi - (x + 2 * Real.pi)) / (2 * Real.pi)
        = (-Real.pi - x) / (2 * Real.pi) - 1 := by
      field_simp
      ring
    have hceil : ⌈(-Real.pi - (x + 2 * Real.pi)) / (2 * Real.pi)⌉
        = ⌈(-Real.pi - x) / (2 * Real.pi)⌉ - 1 := by
      rw [harg]
      exact_mod_cast Int.ceil_sub_int ((-Real.pi - x) / (2 * Real.pi)) 1
    have hpos : (0 : ℝ) < (-Real.pi - x) / (2 * Real.pi) := by
      apply div_pos <;> linarith
    have h1 : 1 ≤ ⌈(-Real.pi - x) / (2 * Real.pi)⌉ := Int.ceil_pos.mpr hpos
    rw [hceil]
    omega

/-- One sample of `fm_discriminator`: the wrapped phase difference against
the carried previous phase, normalised by the two correction loops run in
source order (subtractions first, then additions). -/
noncomputable def fm_phase_diff (c : C32) (prev_phase : ℝ) : ℝ :=
  wrapUp (wrapDown (sampPhase c - prev_phase))

/-- Bit-timing state of `GfskDemodulator`: the in-progress bit sample
buffer and the fractional position counter. -/
structure BitSyncState where
  bit_buffer : List ℚ
  bit_position : ℚ
  deriving Repr, DecidableEq

/-- One filtered sample through the slicer of `recover_bits`: push the
sample, bump the counter, and when `bit_position >= samples_per_bit`
decide the bit from the buffer's midpoint
(`(len / 2).min(len - 1)`, `value > 0.0`), clear the buffer and subtract
`samples_per_bit` (no reset to zero). -/
def recover_bits_step (spb : ℚ) (st : BitSyncState) (sample : ℚ) :
    BitSyncState × Option Bool :=
  let buf := st.bit_buffer ++ [sample]
  let pos := st.bit_position + 1
  if spb ≤ pos then
    let mid := min (buf.length / 2) (buf.length - 1)
    let bit := decide (0 < buf.getD mid 0)
    (⟨[], pos - spb⟩, some bit)
  else
    (⟨buf, pos⟩, none)

/-- Model of `GfskDemodulator::recover_bits` over a block of filtered
samples: fold the per-sample slicer, collecting emitted bits in order. -/
def recover_bits (spb : ℚ) : BitSyncState → List ℚ → BitSyncState × List Bool
  | st, [] => (st, [])
  | st, sample :: rest =>
    let r := recover_bits_step spb st sample
    let rec2 := recover_bits spb r.1 rest
    (rec2.1,
      match r.2 with
      | some b => b :: rec2.2
      | none => rec2.2)

/-- Byte value of up to 8 bits taken least-significant-bit first: the
`byte |= 1 << i` loop of `decode_bytes`. -/
def byteFromBits (l : List Bool) : Nat :=
  l.foldr (fun b acc => b.toNat + 2 * acc) 0

/-- Model of the `while self.byte_buffer.len() >= 8` loop of
`decode_bytes`: assemble one byte from the first 8 buffered bits
(LSB-first), drain them, and repeat; the short remainder stays buffered. -/
def decode_bytes_loop : List Bool → List Nat × List Bool
  | b0 :: b1 :: b2 :: b3 :: b4 :: b5 :: b6 :: b7 :: rest =>
    let r := decode_bytes_loop rest
    (byteFromBits [b0, b1, b2, b3, b4, b5, b6, b7] :: r.1, r.2)
  | l => ([], l)

/-- Model of `GfskDemodulator::decode_bytes`: extend the persistent
leftover-bit buffer with the new bits, drain complete bytes, and return
`None` when no byte was produced (distinct from `Some` of an empty
sequence); the second component is the leftover buffer left in `self`. -/
def decode_bytes (byte_buffer : List Bool) (bits : List Bool) :
    Option (List Nat) × List Bool :=
  let all := byte_buffer ++ bits
  let r := decode_bytes_loop all
  (if r.1.isEmpty then none else some r.1, r.2)

/-- LSB-first bit expansion of a value into `n` bits (the encoding the
spec's round-trip property feeds back into the byte assembler). -/
def bitsLSB : Nat → Nat → List Bool
  | 0, _ => []
  | n + 1, v => (v % 2 = 1) :: bitsLSB n (v / 2)

/-! ## Streaming substrate (`src/rtlsdr.rs`)

`RTLSDRController::new` wires the sample path with
`crossbeam_channel::unbounded()`.  The channel's buffering discipline is
modelled as a queue with an optional capacity: `none` models
`unbounded()` (a send always appends and completes), `some c` models
`bounded(c)` (a send on a full queue does not complete — the caller
blocks). -/

structure Channel (α : Type) where
  capacity : Option Nat
  queue : List α

/-- The capacity of the sample queue constructed by
`RTLSDRController::new` (`let (sample_tx, sample_rx) = unbounded();`). -/
def sampleChannelCapacity : Option Nat := none

/-- Send semantics: on an unbounded channel the message is always
enqueued and the send completes at once; on a full bounded channel the
send does not complete (the producer would block). -/
def Channel.send {α : Type} (ch : Channel α) (x : α) : Channel α × Bool :=
  match ch.capacity with
  | none => ({ ch with queue := ch.queue ++ [x] }, true)
  | some c =>
    if ch.queue.length < c then ({ ch with queue := ch.queue ++ [x] }, true)
    else (ch, false)

/-! ### Bit-string arithmetic lemmas -/

theorem bitsVal_foldl_init (l : List Bool) (a : Nat) :
    l.foldl (fun acc b => 2 * acc + b.toNat) a = a * 2 ^ l.length + bitsVal l := by
  induction l generalizing a with
  | nil => simp [bitsVal]
  | cons b t ih =>
    have h1 : bitsVal (b :: t) = b.toNat * 2 ^ t.length + bitsVal t := by
      simp only [bitsVal, List.foldl_cons]
      rw [ih]
      simp [bitsVal]
    simp only [List.foldl_cons, List.length_cons, h1]
    rw [ih]
    ring

theorem bitsVal_cons (b : Bool) (l : List Bool) :
    bitsVal (b :: l) = b.toNat * 2 ^ l.length + bitsVal l := by
  simpa [bitsVal] using bitsVal_foldl_init l b.toNat

theorem bitsVal_append (xs ys : List Bool) :
    bitsVal (xs ++ ys) = bitsVal xs * 2 ^ ys.length + bitsVal ys := by
  induction xs with
  | nil => simp [bitsVal]
  | cons b t ih =>
    rw [List.cons_append, bitsVal_cons, bitsVal_cons, ih]
    simp only [List.length_append]
    ring

theorem bitsVal_lt (l : List Bool) : bitsVal l < 2 ^ l.length := by
  induction l with
  | nil => simp [bitsVal]
  | cons b t ih =>
    rw [bitsVal_cons]
    have hb : b.toNat * 2 ^ t.length ≤ 2 ^ t.length := by
      cases b <;> simp
    have hp : 2 ^ (t.length + 1) = 2 ^ t.length + 2 ^ t.length := by
      rw [pow_succ]; ring
    simp only [List.length_cons]
    omega

theorem bitsMSB_length (n s : Nat) : (bitsMSB n s).length = n := by
  induction n with
  | zero => rfl
  | succ n ih => simp [bitsMSB, ih]

theorem bitsVal_bitsMSB (n s : Nat) : bitsVal (bitsMSB n s) = s % 2 ^ n := by
  induction n with
  | zero => simp [bitsMSB, bitsVal, Nat.mod_one]
  | succ n ih =>
    rw [bitsMSB, bitsVal_cons, bitsMSB_length, ih, Nat.toNat_testBit]
    have h : s % (2 ^ n * 2) = s % 2 ^ n + 2 ^ n * (s / 2 ^ n % 2) := Nat.mod_mul ..
    rw [← pow_succ] at h
    have hc : s / 2 ^ n % 2 * 2 ^ n = 2 ^ n * (s / 2 ^ n % 2) := Nat.mul_comm ..
    omega

/-! ### Drain loop versus 8-bit chunking -/

theorem chunkFull_cons8 (b0 b1 b2 b3 b4 b5 b6 b7 : Bool) (rest : List Bool) :
    chunkFull (b0 :: b1 :: b2 :: b3 :: b4 :: b5 :: b6 :: b7 :: rest)
      = (bitsVal [b0, b1, b2, b3, b4, b5, b6, b7] :: (chunkFull rest).1,
         (chunkFull rest).2) := rfl

/-- The drain loop of `pack_symbols_to_bytes`, run on an accumulator whose
low `bits.length` bits spell `bits`, emits exactly the complete 8-bit
groups of `bits` and keeps the short tail (of fewer than 8 bits) pending
in the accumulator. -/
theorem drain_spec (n : Nat) : ∀ (bits : List Bool) (buffer : Nat),
    bits.length = n → buffer % 2 ^ n = bitsVal bits →
    drainLoop buffer n = ((chunkFull bits).1, (chunkFull bits).2.length)
    ∧ buffer % 2 ^ (chunkFull bits).2.length = bitsVal (chunkFull bits).2
    ∧ (chunkFull bits).2.length < 8 := by
  induction n using Nat.strong_induction_on with
  | _ n ih =>
    intro bits buffer hlen h
    match bits, hlen with
    | [], rfl => exact ⟨rfl, h, by show (0:Nat) < 8; norm_num⟩
    | [b0], rfl => exact ⟨rfl, h, by show (1:Nat) < 8; norm_num⟩
    | [b0, b1], rfl => exact ⟨rfl, h, by show (2:Nat) < 8; norm_num⟩
    | [b0, b1, b2], rfl => exact ⟨rfl, h, by show (3:Nat) < 8; norm_num⟩
    | [b0, b1, b2, b3], rfl => exact ⟨rfl, h, by show (4:Nat) < 8; norm_num⟩
    | [b0, b1, b2, b3, b4], rfl => exact ⟨rfl, h, by show (5:Nat) < 8; norm_num⟩
    | [b0, b1, b2, b3, b4, b5], rfl => exact ⟨rfl, h, by show (6:Nat) < 8; norm_num⟩
    | [b0, b1, b2, b3, b4, b5, b6], rfl => exact ⟨rfl, h, by show (7:Nat) < 8; norm_num⟩
    | b0 :: b1 :: b2 :: b3 :: b4 :: b5 :: b6 :: b7 :: rest, rfl =>
      set c := rest.length with hc
      have hsplit : bitsVal (b0 :: b1 :: b2 :: b3 :: b4 :: b5 :: b6 :: b7 :: rest)
          = bitsVal [b0, b1, b2, b3, b4, b5, b6, b7] * 2 ^ c + bitsVal rest := by
        simpa using bitsVal_append [b0, b1, b2, b3, b4, b5, b6, b7] rest
      set V8 := bitsVal [b0, b1, b2, b3, b4, b5, b6, b7] with hV8
      have hlen8 : (b0 :: b1 :: b2 :: b3 :: b4 :: b5 :: b6 :: b7 :: rest).length
          = c + 8 := by simp [hc]
      have hVr : bitsVal rest < 2 ^ c := by
        have := bitsVal_lt rest; rwa [← hc] at this
      have hmod : buffer % 2 ^ (c + 8) = V8 * 2 ^ c + bitsVal rest := by
        rw [← hsplit, ← hlen8]; exact h
    -- the emitted byte is the value of the top 8 pending bits
      have hbyte : buffer / 2 ^ c % 256 = V8 := by
        have h1 : buffer / 2 ^ c % 256 = buffer % (2 ^ c * 256) / 2 ^ c :=
          (Nat.mod_mul_right_div_self buffer (2 ^ c) 256).symm
        have h2 : (2 : Nat) ^ c * 256 = 2 ^ (c + 8) := by
          rw [pow_add]; norm_num
        rw [h1, h2, hmod, Nat.mul_comm V8 (2 ^ c),
          Nat.mul_add_div (Nat.pos_pow_of_pos c (by norm_num)),
          Nat.div_eq_of_lt hVr]
        omega
      have hV8lt : V8 < 256 := by
        have := bitsVal_lt [b0, b1, b2, b3, b4, b5, b6, b7]
        simpa [hV8] using this
    -- the low bits of the accumulator still spell the tail
      have hlow : buffer % 2 ^ c = bitsVal rest := by
        have hdvd : (2 : Nat) ^ c ∣ 2 ^ (c + 8) := pow_dvd_pow 2 (by omega)
        calc buffer % 2 ^ c = buffer % 2 ^ (c + 8) % 2 ^ c :=
              (Nat.mod_mod_of_dvd buffer hdvd).symm
          _ = (2 ^ c * V8 + bitsVal rest) % 2 ^ c := by
              rw [hmod, Nat.mul_comm V8 (2 ^ c)]
          _ = bitsVal rest % 2 ^ c := Nat.mul_add_mod ..
          _ = bitsVal rest := Nat.mod_eq_of_lt hVr
      obtain ⟨ih1, ih2, ih3⟩ := ih c (by omega) rest buffer rfl hlow
      have hstep : drainLoop buffer (c + 8)
          = ((buffer / 2 ^ c % 256) :: (drainLoop buffer c).1,
             (drainLoop buffer c).2) := rfl
      refine ⟨?_, ?_, ?_⟩
      · rw [hlen8, hstep, hbyte, ih1, chunkFull_cons8]
      · rw [chunkFull_cons8]; exact ih2
      · rw [chunkFull_cons8]; exact ih3

theorem chunkFull_short (l : List Bool) (h : l.length < 8) : chunkFull l = ([], l) := by
  match l with
  | [] => rfl
  | [b0] => rfl
  | [b0, b1] => rfl
  | [b0, b1, b2] => rfl
  | [b0, b1, b2, b3] => rfl
  | [b0, b1, b2, b3, b4] => rfl
  | [b0, b1, b2, b3, b4, b5] => rfl
  | [b0, b1, b2, b3, b4, b5, b6] => rfl
  | b0 :: b1 :: b2 :: b3 :: b4 :: b5 :: b6 :: b7 :: rest =>
    exfalso; simp only [List.length_cons] at h; omega

theorem chunkFull_append (n : Nat) : ∀ (xs ys : List Bool), xs.length = n →
    chunkFull (xs ++ ys)
      = ((chunkFull xs).1 ++ (chunkFull ((chunkFull xs).2 ++ ys)).1,
         (chunkFull ((chunkFull xs).2 ++ ys)).2) := by
  induction n using Nat.strong_induction_on with
  | _ n ih =>
    intro xs ys hlen
    match xs, hlen with
    | [], rfl => rfl
    | [b0], rfl => rfl
    | [b0, b1], rfl => rfl
    | [b0, b1, b2], rfl => rfl
    | [b0, b1, b2, b3], rfl => rfl
    | [b0, b1, b2, b3, b4], rfl => rfl
    | [b0, b1, b2, b3, b4, b5], rfl => rfl
    | [b0, b1, b2, b3, b4, b5, b6], rfl => rfl
    | b0 :: b1 :: b2 :: b3 :: b4 :: b5 :: b6 :: b7 :: rest, rfl =>
      have ihr := ih rest.length (by simp only [List.length_cons]; omega) rest ys rfl
      simp only [List.cons_append]
      rw [chunkFull_cons8, chunkFull_cons8, ihr]
      simp

/-- The accumulator invariant of the symbol loop in `pack_symbols_to_bytes`
(SF = 7): starting from an accumulator whose low `cnt < 8` bits spell the
pending bit string `pend`, the loop emits exactly the complete 8-bit
groups of `pend` followed by the low 7 bits of each symbol (MSB-first),
and finishes with the tail of that bit string pending.  The `u32`
wrap-around of the accumulator never touches the live bits. -/
theorem packLoop_spec (syms : List Nat) : ∀ (buffer cnt : Nat) (pend : List Bool),
    pend.length = cnt → cnt < 8 → buffer % 2 ^ cnt = bitsVal pend →
    (packLoop 7 syms buffer cnt).1
        = (chunkFull (pend ++ syms.flatMap (fun s => bitsMSB 7 s))).1
    ∧ (packLoop 7 syms buffer cnt).2.2
        = (chunkFull (pend ++ syms.flatMap (fun s => bitsMSB 7 s))).2.length
    ∧ (packLoop 7 syms buffer cnt).2.1
          % 2 ^ (chunkFull (pend ++ syms.flatMap (fun s => bitsMSB 7 s))).2.length
        = bitsVal (chunkFull (pend ++ syms.flatMap (fun s => bitsMSB 7 s))).2
    ∧ (chunkFull (pend ++ syms.flatMap (fun s => bitsMSB 7 s))).2.length < 8 := by
  induction syms with
  | nil =>
    intro buffer cnt pend hlen hcnt h
    have hsh : chunkFull pend = ([], pend) := chunkFull_short pend (hlen ▸ hcnt)
    refine ⟨?_, ?_, ?_, ?_⟩
    · simp only [packLoop, List.flatMap_nil, List.append_nil, hsh]
    · simp only [packLoop, List.flatMap_nil, List.append_nil, hsh]
      exact hlen.symm
    · simp only [packLoop, List.flatMap_nil, List.append_nil, hsh]
      rw [hlen]; exact h
    · simp only [List.flatMap_nil, List.append_nil, hsh]
      rw [hlen]; exact hcnt
  | cons s rest ih =>
    intro buffer cnt pend hlen hcnt h
    set B1 := (buffer * 2 ^ 7 + s % 2 ^ 7) % 2 ^ 32 with hB1
    set bits1 := pend ++ bitsMSB 7 s with hbits1def
    have hlen1 : bits1.length = cnt + 7 := by
      simp only [hbits1def, List.length_append, bitsMSB_length, hlen]
    have hv : bitsVal pend < 2 ^ cnt := by
      have := bitsVal_lt pend; rwa [hlen] at this
    -- the shifted-and-masked accumulator spells `pend ++ bitsMSB 7 s`
    have hacc : B1 % 2 ^ (cnt + 7) = bitsVal bits1 := by
      have hdvd : (2 : Nat) ^ (cnt + 7) ∣ 2 ^ 32 := pow_dvd_pow 2 (by omega)
      rw [hB1, Nat.mod_mod_of_dvd _ hdvd]
      have hq : 2 ^ cnt * (buffer / 2 ^ cnt) + buffer % 2 ^ cnt = buffer :=
        Nat.div_add_mod buffer (2 ^ cnt)
      have hbuf : buffer = 2 ^ cnt * (buffer / 2 ^ cnt) + bitsVal pend := by
        rw [← h]; exact hq.symm
      have hsplit : buffer * 2 ^ 7 + s % 2 ^ 7
          = 2 ^ (cnt + 7) * (buffer / 2 ^ cnt)
            + (bitsVal pend * 2 ^ 7 + s % 2 ^ 7) := by
        calc buffer * 2 ^ 7 + s % 2 ^ 7
            = (2 ^ cnt * (buffer / 2 ^ cnt) + bitsVal pend) * 2 ^ 7 + s % 2 ^ 7 := by
              rw [← hbuf]
          _ = 2 ^ (cnt + 7) * (buffer / 2 ^ cnt)
              + (bitsVal pend * 2 ^ 7 + s % 2 ^ 7) := by
              rw [pow_add]; ring
      have hy : bitsVal pend * 2 ^ 7 + s % 2 ^ 7 < 2 ^ (cnt + 7) := by
        have hs : s % 2 ^ 7 < 2 ^ 7 := Nat.mod_lt s (by norm_num)
        have hpow : 2 ^ (cnt + 7) = 2 ^ cnt * 2 ^ 7 := by rw [pow_add]
        nlinarith
      rw [hsplit, Nat.mul_add_mod, Nat.mod_eq_of_lt hy, hbits1def,
        bitsVal_append, bitsMSB_length, bitsVal_bitsMSB]
    obtain ⟨d1, d2, d3⟩ := drain_spec (cnt + 7) bits1 B1 hlen1 hacc
    set rem := (chunkFull bits1).2 with hremdef
    have d1a : (drainLoop B1 (cnt + 7)).1 = (chunkFull bits1).1 := by rw [d1]
    have d1b : (drainLoop B1 (cnt + 7)).2 = rem.length := by rw [d1]
    obtain ⟨p1, p2, p3, p4⟩ := ih B1 rem.length rem rfl d3 d2
    have happ := chunkFull_append bits1.length bits1
      (rest.flatMap (fun t => bitsMSB 7 t)) rfl
    have hassoc : pend ++ (s :: rest).flatMap (fun t => bitsMSB 7 t)
        = bits1 ++ rest.flatMap (fun t => bitsMSB 7 t) := by
      simp [hbits1def, List.flatMap_cons, List.append_assoc]
    have e1 : (packLoop 7 (s :: rest) buffer cnt).1
        = (drainLoop B1 (cnt + 7)).1
          ++ (packLoop 7 rest B1 (drainLoop B1 (cnt + 7)).2).1 := rfl
    have e2 : (packLoop 7 (s :: rest) buffer cnt).2.1
        = (packLoop 7 rest B1 (drainLoop B1 (cnt + 7)).2).2.1 := rfl
    have e3 : (packLoop 7 (s :: rest) buffer cnt).2.2
        = (packLoop 7 rest B1 (drainLoop B1 (cnt + 7)).2).2.2 := rfl
    have hspec1 : (chunkFull (pend ++ (s :: rest).flatMap (fun t => bitsMSB 7 t))).1
        = (chunkFull bits1).1
          ++ (chunkFull (rem ++ rest.flatMap (fun t => bitsMSB 7 t))).1 := by
      rw [hassoc, happ]
    have hspec2 : (chunkFull (pend ++ (s :: rest).flatMap (fun t => bitsMSB 7 t))).2
        = (chunkFull (rem ++ rest.flatMap (fun t => bitsMSB 7 t))).2 := by
      rw [hassoc, happ]
    refine ⟨?_, ?_, ?_, ?_⟩
    · rw [e1, d1a, d1b, p1, hspec1]
    · rw [e3, d1b, p2, hspec2]
    · rw [e2, d1b, hspec2]; exact p3
    · rw [hspec2]; exact p4

/-- The SF = 7 packer equals the spec-side bit-string chunking. -/
theorem pack7_eq_chunkBytes (syms : List Nat) :
    pack_symbols_to_bytes syms 7
      = chunkBytes (syms.flatMap (fun s => bitsMSB 7 s)) := by
  obtain ⟨p1, p2, p3, p4⟩ :=
    packLoop_spec syms 0 0 [] rfl (by norm_num) (by simp [bitsVal])
  simp only [List.nil_append] at p1 p2 p3 p4
  set bits := syms.flatMap (fun s => bitsMSB 7 s) with hbits
  simp only [pack_symbols_to_bytes, chunkBytes]
  rw [p1, p2]
  congr 1
  rcases hremnil : (chunkFull bits).2 with _ | ⟨b, tl⟩
  · simp
  · have hL8 : (b :: tl).length < 8 := by rw [← hremnil]; exact p4
    rw [hremnil] at p3
    rw [if_pos (by simp), if_neg (by simp)]
    set A := (packLoop 7 syms 0 0).2.1 with hA
    have h1 : A * 2 ^ (8 - (b :: tl).length) % 2 ^ 32 % 256
        = A * 2 ^ (8 - (b :: tl).length) % 256 :=
      Nat.mod_mod_of_dvd _ (by norm_num)
    have hLsum : (b :: tl).length + (8 - (b :: tl).length) = 8 := by omega
    have h2 : (256 : Nat) = 2 ^ (b :: tl).length * 2 ^ (8 - (b :: tl).length) := by
      rw [← pow_add, hLsum]
      norm_num
    have h3 : A * 2 ^ (8 - (b :: tl).length)
          % (2 ^ (b :: tl).length * 2 ^ (8 - (b :: tl).length))
        = A % 2 ^ (b :: tl).length * 2 ^ (8 - (b :: tl).length) :=
      Nat.mul_mod_mul_right ..
    rw [h1, h2, h3, p3]

theorem flatMap7_length (syms : List Nat) :
    (syms.flatMap (fun s => bitsMSB 7 s)).length = 7 * syms.length := by
  induction syms with
  | nil => simp
  | cons s rest ih =>
    simp [List.flatMap_cons, List.length_append, bitsMSB_length, ih]
    ring

theorem chunkBytes_length (n : Nat) : ∀ l : List Bool, l.length = n →
    (chunkBytes l).length = (l.length + 7) / 8 := by
  induction n using Nat.strong_induction_on with
  | _ n ih =>
    intro l hlen
    match l, hlen with
    | [], rfl => rfl
    | [b0], rfl => simp [chunkBytes, chunkFull]
    | [b0, b1], rfl => simp [chunkBytes, chunkFull]
    | [b0, b1, b2], rfl => simp [chunkBytes, chunkFull]
    | [b0, b1, b2, b3], rfl => simp [chunkBytes, chunkFull]
    | [b0, b1, b2, b3, b4], rfl => simp [chunkBytes, chunkFull]
    | [b0, b1, b2, b3, b4, b5], rfl => simp [chunkBytes, chunkFull]
    | [b0, b1, b2, b3, b4, b5, b6], rfl => simp [chunkBytes, chunkFull]
    | b0 :: b1 :: b2 :: b3 :: b4 :: b5 :: b6 :: b7 :: rest, rfl =>
      have hstep : chunkBytes (b0 :: b1 :: b2 :: b3 :: b4 :: b5 :: b6 :: b7 :: rest)
          = bitsVal [b0, b1, b2, b3, b4, b5, b6, b7] :: chunkBytes rest := by
        simp only [chunkBytes, chunkFull_cons8, List.cons_append]
      have ihr := ih rest.length (by simp only [List.length_cons]; omega) rest rfl
      rw [hstep]
      simp only [List.length_cons, ihr]
      omega

/-- C1: for every symbol sequence and spreading factor in 7..12,
`symbols_to_bytes` realises exactly the mapping the spec describes: SF 8
keeps each symbol's low 8 bits, SF 9..12 keeps `(symbol >> (SF - 8)) & 0xFF`,
and SF 7 appends the low 7 bits of each symbol MSB-first to a bit
accumulator, drains complete 8-bit groups in order, and pads the final
short group left-shifted by `8 - k`; `n` symbols yield `(7n + 7) / 8`
bytes at SF 7 (that is, the ceiling of `7n / 8`). -/
theorem symbols_to_bytes_matches_spec (sf : Nat) (syms : List Nat)
    (h7 : 7 ≤ sf) (h12 : sf ≤ 12) :
    symbols_to_bytes sf syms = specSymbolsToBytes sf syms
    ∧ (symbols_to_bytes 7 syms).length = (7 * syms.length + 7) / 8 := by
  constructor
  · interval_cases sf <;>
      simp [symbols_to_bytes, specSymbolsToBytes, pack7_eq_chunkBytes]
  · have h : symbols_to_bytes 7 syms = pack_symbols_to_bytes syms 7 := by
      simp [symbols_to_bytes]
    rw [h, pack7_eq_chunkBytes, chunkBytes_length _ _ rfl, flatMap7_length]

/-- Witness for C1: concrete evaluation at SF 7 with symbols `[1, 2]`,
whose 14 packed bits yield the bytes `[0x02, 0x08]`. -/
theorem symbols_to_bytes_matches_spec_witness :
    ((7 : Nat) ≤ 7 ∧ (7 : Nat) ≤ 12)
    ∧ (symbols_to_bytes 7 [1, 2] = specSymbolsToBytes 7 [1, 2]
       ∧ (symbols_to_bytes 7 [1, 2]).length = (7 * 2 + 7) / 8)
    ∧ symbols_to_bytes 7 [1, 2] = [2, 8] :=
  ⟨⟨by norm_num, by norm_num⟩,
   symbols_to_bytes_matches_spec 7 [1, 2] (by norm_num) (by norm_num),
   by decide⟩

/-! ## C6: decoder configuration invariant -/

theorem set_spreading_factor_props (d : HC12Decoder) (sf : Nat) :
    7 ≤ (d.set_spreading_factor sf).spreading_factor
    ∧ (d.set_spreading_factor sf).spreading_factor ≤ 12
    ∧ (d.set_spreading_factor sf).fft_size
        = 2 ^ (d.set_spreading_factor sf).spreading_factor := by
  refine ⟨?_, ?_, ?_⟩ <;>
    simp only [HC12Decoder.set_spreading_factor] <;>
    omega

theorem foldl_set_spreading_factor_props (calls : List Nat) : ∀ d : HC12Decoder,
    d.fft_size = 2 ^ d.spreading_factor →
    (calls.foldl HC12Decoder.set_spreading_factor d).fft_size
        = 2 ^ (calls.foldl HC12Decoder.set_spreading_factor d).spreading_factor
    ∧ (calls ≠ [] →
        7 ≤ (calls.foldl HC12Decoder.set_spreading_factor d).spreading_factor
        ∧ (calls.foldl HC12Decoder.set_spreading_factor d).spreading_factor ≤ 12) := by
  induction calls with
  | nil =>
    intro d hd
    exact ⟨hd, fun hne => absurd rfl hne⟩
  | cons c rest ih =>
    intro d hd
    have hset := set_spreading_factor_props d c
    have ihr := ih (d.set_spreading_factor c) hset.2.2
    rcases rest with _ | ⟨c2, rest2⟩
    · exact ⟨hset.2.2, fun _ => ⟨hset.1, hset.2.1⟩⟩
    · exact ⟨ihr.1, fun _ => ihr.2 (by simp)⟩

/-- C6 counterexample: `HC12Decoder::new(13, 125_000)` is reachable through
the public constructor, and it stores spreading factor 13 — outside 7..12 —
because `new` (unlike `set_spreading_factor`) performs no clamping. -/
theorem new_does_not_clamp :
    (HC12Decoder.new 13 125000).spreading_factor = 13
    ∧ ¬ ((HC12Decoder.new 13 125000).spreading_factor ≤ 12) := by
  decide

/-- C6 amended: for every decoder reachable through the public interface,
the derived FFT size always equals `2 ^ spreading_factor`; the stored
spreading factor lies in [7, 12] after any `set_spreading_factor` call
(which clamps), but an instance fresh from `new` carries the constructor
argument unclamped. -/
theorem decoder_config_invariant (sf0 bw : Nat) (calls : List Nat) :
    (calls.foldl HC12Decoder.set_spreading_factor (HC12Decoder.new sf0 bw)).fft_size
      = 2 ^ (calls.foldl HC12Decoder.set_spreading_factor
              (HC12Decoder.new sf0 bw)).spreading_factor
    ∧ (calls ≠ [] →
        7 ≤ (calls.foldl HC12Decoder.set_spreading_factor
              (HC12Decoder.new sf0 bw)).spreading_factor
        ∧ (calls.foldl HC12Decoder.set_spreading_factor
              (HC12Decoder.new sf0 bw)).spreading_factor ≤ 12) :=
  foldl_set_spreading_factor_props calls (HC12Decoder.new sf0 bw) rfl

/-- Witness for C6 (amended): constructing with the out-of-range factor 13
and then reconfiguring with 13 clamps to 12, with the FFT size in step. -/
theorem decoder_config_invariant_witness :
    ([13] : List Nat) ≠ []
    ∧ ([13].foldl HC12Decoder.set_spreading_factor
        (HC12Decoder.new 13 125000)).fft_size
      = 2 ^ ([13].foldl HC12Decoder.set_spreading_factor
              (HC12Decoder.new 13 125000)).spreading_factor
    ∧ 7 ≤ ([13].foldl HC12Decoder.set_spreading_factor
            (HC12Decoder.new 13 125000)).spreading_factor
    ∧ ([13].foldl HC12Decoder.set_spreading_factor
        (HC12Decoder.new 13 125000)).spreading_factor ≤ 12 := by
  have h := decoder_config_invariant 13 125000 [13]
  exact ⟨by decide, h.1, (h.2 (by decide)).1, (h.2 (by decide)).2⟩

/-! ## C9: decode on an empty block -/

/-- C9: calling `decode` on an empty sample block returns the
`"No samples provided"` failure for that call, and the decoder's
persistent configuration (spreading factor, bandwidth, FFT size) is
returned exactly as it was, so later calls are unaffected. -/
theorem decode_empty_fails_preserving_state (d : HC12Decoder)
    (F : List C32 → List C32) (samples : List C32) (h : samples = []) :
    decode d F samples = (.error "No samples provided", d) := by
  subst h
  rfl

/-- Witness for C9: a concrete decoder and the empty block. -/
theorem decode_empty_fails_preserving_state_witness :
    ([] : List C32) = []
    ∧ decode (HC12Decoder.new 7 125000) (fun l => l) []
        = (.error "No samples provided", HC12Decoder.new 7 125000) :=
  ⟨rfl, decode_empty_fails_preserving_state (HC12Decoder.new 7 125000)
    (fun l => l) [] rfl⟩

/-! ## C5: unsupported spreading factor -/

theorem extract_symbols_stop (sf : Nat) (F : List C32 → List C32)
    (samples : List C32) (pos : Nat) (h : ¬ pos + 2 ^ sf ≤ samples.length) :
    extract_symbols sf F samples pos = [] := by
  rw [extract_symbols, dif_neg h]

theorem symbols_to_bytes_unsupported (sf : Nat) (h : sf < 7 ∨ 12 < sf)
    (syms : List Nat) :
    symbols_to_bytes sf syms = [] := by
  unfold symbols_to_bytes
  rw [if_neg (by omega), if_neg (by omega), if_neg (by omega)]

/-- C5 counterexample: with the reachable configuration
`HC12Decoder::new(13, 125_000)` and a non-empty sample block, `decode`
returns `Ok` — not an error — with an empty byte output: the
unsupported-spreading-factor condition is only printed to stderr by
`symbols_to_bytes` and is never surfaced in the call's result. -/
theorem decode_sf13_swallows_failure :
    ((decode (HC12Decoder.new 13 125000) (fun l => l) [⟨1, 0⟩]).1.map
      (fun r => r.bytes)) = .ok []
    ∧ ((decode (HC12Decoder.new 13 125000) (fun l => l) [⟨1, 0⟩]).1.isOk
        = true) := by
  have hpow : (2 : Nat) ^ 13 = 8192 := by norm_num
  have hstop : ¬ detect_preamble 8192 [(⟨1, 0⟩ : C32)] + 2 ^ 13
      ≤ ([(⟨1, 0⟩ : C32)] : List C32).length := by
    simp only [List.length_cons, List.length_nil, hpow]
    omega
  have hext : extract_symbols 13 (fun l => l) [(⟨1, 0⟩ : C32)]
      (detect_preamble 8192 [(⟨1, 0⟩ : C32)]) = [] :=
    extract_symbols_stop _ _ _ _ hstop
  constructor
  · simp only [decode, List.isEmpty_cons, Bool.false_eq_true, if_false,
      HC12Decoder.new, hext]
    simp [symbols_to_bytes_unsupported 13 (by norm_num), Except.map]
  · simp [decode, HC12Decoder.new, hext, Except.isOk, Except.toBool]

/-- C5 amended: for every decoder whose spreading factor lies outside
7..12 and every non-empty sample block, `decode` produces an empty byte
output and leaves the decoder state intact, but the call reports success
(`Ok`): the unsupported-configuration failure is logged to stderr rather
than surfaced in the call's result. -/
theorem decode_unsupported_sf_ok_empty (sf bw : Nat) (F : List C32 → List C32)
    (samples : List C32) (hsf : sf < 7 ∨ 12 < sf) (hne : samples ≠ []) :
    ((decode (HC12Decoder.new sf bw) F samples).1.map (fun r => r.bytes)) = .ok []
    ∧ (decode (HC12Decoder.new sf bw) F samples).2 = HC12Decoder.new sf bw := by
  have hie : samples.isEmpty = false := by
    rcases samples with _ | ⟨c, rest⟩
    · exact absurd rfl hne
    · rfl
  constructor
  · simp only [decode, hie, Bool.false_eq_true, if_false, HC12Decoder.new,
      symbols_to_bytes_unsupported sf hsf]
    simp [Except.map]
  · simp only [decode, hie, Bool.false_eq_true, if_false]

/-- Witness for C5 (amended): spreading factor 13 on a one-sample block. -/
theorem decode_unsupported_sf_ok_empty_witness :
    ((13 : Nat) < 7 ∨ (12 : Nat) < 13)
    ∧ ([(⟨2, 0⟩ : C32)] ≠ [])
    ∧ ((decode (HC12Decoder.new 13 100) (fun l => l) [⟨2, 0⟩]).1.map
        (fun r => r.bytes)) = .ok []
    ∧ (decode (HC12Decoder.new 13 100) (fun l => l) [⟨2, 0⟩]).2
        = HC12Decoder.new 13 100 := by
  have h := decode_unsupported_sf_ok_empty 13 100 (fun l => l) [⟨2, 0⟩]
    (by norm_num) (List.cons_ne_nil _ _)
  exact ⟨by norm_num, List.cons_ne_nil _ _, h.1, h.2⟩

/-! ## C7: the symbol extractor's window discipline -/

/-- C7: for every block, offset, spreading factor and FFT behaviour, the
extractor consumes consecutive non-overlapping windows of exactly
`2 ^ sf` samples starting at the offset, stopping when fewer than one
window remains — emitting exactly `(len - off) / 2 ^ sf` symbols (0 when
`off + 2 ^ sf > len`) — and every emitted symbol is strictly below
`2 ^ sf` thanks to the peak-bin mask. -/
theorem extract_symbols_spec (sf : Nat) (F : List C32 → List C32)
    (samples : List C32) (off : Nat) :
    (extract_symbols sf F samples off).length
        = (samples.length - off) / 2 ^ sf
    ∧ ∀ s ∈ extract_symbols sf F samples off, s < 2 ^ sf := by
  have hp : 0 < 2 ^ sf := Nat.pos_pow_of_pos sf (by norm_num)
  by_cases h : off + 2 ^ sf ≤ samples.length
  · obtain ⟨ih1, ih2⟩ := extract_symbols_spec sf F samples (off + 2 ^ sf)
    have hunf : extract_symbols sf F samples off
        = fft_peak_detect sf F
            (List.zipWith C32.mul ((samples.drop off).take (2 ^ sf))
              (generate_downchirp sf))
          :: extract_symbols sf F samples (off + 2 ^ sf) := by
      rw [extract_symbols, dif_pos h]
    constructor
    · rw [hunf, List.length_cons, ih1]
      have hsum : samples.length - off = samples.length - (off + 2 ^ sf) + 2 ^ sf := by
        omega
      rw [hsum, Nat.add_div_right _ hp]
    · intro s hs
      rw [hunf, List.mem_cons] at hs
      rcases hs with hs | hs
      · rw [hs]
        exact Nat.mod_lt _ hp
      · exact ih2 s hs
  · rw [extract_symbols_stop sf F samples off h]
    constructor
    · rw [List.length_nil, Nat.div_eq_of_lt (by omega)]
    · intro s hs
      exact absurd hs (List.not_mem_nil s)
  termination_by samples.length - off
  decreasing_by omega

/-! ## C8: the preamble energy scan -/

theorem peakFold_no_update (p : Nat → ℝ) : ∀ (l : List Nat) (init : Nat × ℝ),
    (∀ o ∈ l, ¬ init.2 < p o) → peakFold p l init = init := by
  intro l
  induction l with
  | nil => intro init _; rfl
  | cons a rest ih =>
    intro init h
    have ha : ¬ init.2 < p a := h a (List.mem_cons_self a rest)
    show peakFold p rest (if init.2 < p a then (a, p a) else init) = init
    rw [if_neg ha]
    exact ih init (fun o ho => h o (List.mem_cons_of_mem a ho))

theorem peakFold_strict_max (p : Nat → ℝ) (t : Nat) : ∀ (l : List Nat)
    (init : Nat × ℝ), t ∈ l → init.2 < p t →
    (∀ o ∈ l, o ≠ t → p o < p t) →
    peakFold p l init = (t, p t) := by
  intro l
  induction l with
  | nil => intro init ht _ _; exact absurd ht (List.not_mem_nil t)
  | cons a rest ih =>
    intro init ht hinit hmax
    show peakFold p rest (if init.2 < p a then (a, p a) else init) = (t, p t)
    by_cases hat : a = t
    · subst hat
      rw [if_pos hinit]
      apply peakFold_no_update
      intro o ho
      by_cases hot : o = a
      · rw [hot]; exact lt_irrefl _
      · exact not_lt_of_gt (hmax o (List.mem_cons_of_mem a ho) hot)
    · have hat2 : p a < p t :=
        hmax a (List.mem_cons_self a rest) (fun h => hat h)
      have ht2 : t ∈ rest := by
        rcases List.mem_cons.mp ht with h | h
        · exact absurd h.symm hat
        · exact h
      by_cases hupd : init.2 < p a
      · rw [if_pos hupd]
        exact ih (a, p a) ht2 hat2
          (fun o ho hot => hmax o (List.mem_cons_of_mem a ho) hot)
      · rw [if_neg hupd]
        exact ih init ht2 hinit
          (fun o ho hot => hmax o (List.mem_cons_of_mem a ho) hot)

/-- C8 amended: `detect_preamble` slides a window in steps of one quarter
window size over the offsets `0, s, 2s, ...` strictly below
`len − window_size` and returns the strict-maximum-energy offset among
those scanned.  A block whose unique high-energy window starts at one of
the scanned offsets is therefore located exactly; a high-energy window
whose start is unaligned, or equals the last admissible position
`len − window_size` (excluded by the scan's exclusive bound), need not
be. -/
theorem detect_preamble_finds_scanned_max (w : Nat) (samples : List C32)
    (t : Nat) (ht : t ∈ scanOffsets samples.length w)
    (hpos : 0 < windowPower samples t w)
    (hmax : ∀ o ∈ scanOffsets samples.length w, o ≠ t →
      windowPower samples o w < windowPower samples t w) :
    detect_preamble w samples = t := by
  unfold detect_preamble
  rw [peakFold_strict_max (fun off => windowPower samples off w) t
    (scanOffsets samples.length w) (0, 0) ht hpos hmax]

/-- C8 counterexample: a block of eight samples whose unique maximal-energy
window of symbol size 4 starts at offset 4 — the last admissible start,
`len − window_size` — which the scan's exclusive bound
`0..len.saturating_sub(window_size)` never visits; `detect_preamble`
returns 3 (the best scanned, partially overlapping offset), not 4. -/
theorem detect_preamble_misses_last_window :
    detect_preamble 4
      ([⟨0,0⟩, ⟨0,0⟩, ⟨0,0⟩, ⟨0,0⟩, ⟨1,0⟩, ⟨1,0⟩, ⟨1,0⟩, ⟨1,0⟩] : List C32) = 3
    ∧ windowPower
        ([⟨0,0⟩, ⟨0,0⟩, ⟨0,0⟩, ⟨0,0⟩, ⟨1,0⟩, ⟨1,0⟩, ⟨1,0⟩, ⟨1,0⟩] : List C32) 4 4 = 4
    ∧ windowPower
        ([⟨0,0⟩, ⟨0,0⟩, ⟨0,0⟩, ⟨0,0⟩, ⟨1,0⟩, ⟨1,0⟩, ⟨1,0⟩, ⟨1,0⟩] : List C32) 3 4 = 3
    ∧ (3 : Nat) ≠ 4 := by
  set samples : List C32 :=
    [⟨0,0⟩, ⟨0,0⟩, ⟨0,0⟩, ⟨0,0⟩, ⟨1,0⟩, ⟨1,0⟩, ⟨1,0⟩, ⟨1,0⟩] with hs
  have hp0 : windowPower samples 0 4 = 0 := by
    simp [hs, windowPower, C32.normSq]
  have hp1 : windowPower samples 1 4 = 1 := by
    simp [hs, windowPower, C32.normSq]
  have hp2 : windowPower samples 2 4 = 2 := by
    simp [hs, windowPower, C32.normSq]
    norm_num
  have hp3 : windowPower samples 3 4 = 3 := by
    simp [hs, windowPower, C32.normSq]
    norm_num
  have hp4 : windowPower samples 4 4 = 4 := by
    simp [hs, windowPower, C32.normSq]
    norm_num
  have hoffs : scanOffsets samples.length 4 = [0, 1, 2, 3] := by
    rw [hs]; decide
  refine ⟨?_, hp4, hp3, by norm_num⟩
  unfold detect_preamble
  rw [peakFold_strict_max (fun off => windowPower samples off 4) 3
    (scanOffsets samples.length 4) (0, 0) ?ht ?hpos ?hmax]
  case ht => rw [hoffs]; decide
  case hpos => dsimp only; rw [hp3]; norm_num
  case hmax =>
    intro o ho hne
    rw [hoffs] at ho
    fin_cases ho <;> dsimp only
    · rw [hp0, hp3]; norm_num
    · rw [hp1, hp3]; norm_num
    · rw [hp2, hp3]; norm_num
    · exact absurd rfl hne

/-- Witness for C8 (amended): the high-energy window starts at the scanned
offset 2 and is located exactly. -/
theorem detect_preamble_finds_scanned_max_witness :
    2 ∈ scanOffsets
        ([⟨0,0⟩, ⟨0,0⟩, ⟨1,0⟩, ⟨1,0⟩, ⟨1,0⟩, ⟨1,0⟩, ⟨0,0⟩, ⟨0,0⟩] : List C32).length 4
    ∧ 0 < windowPower
        ([⟨0,0⟩, ⟨0,0⟩, ⟨1,0⟩, ⟨1,0⟩, ⟨1,0⟩, ⟨1,0⟩, ⟨0,0⟩, ⟨0,0⟩] : List C32) 2 4
    ∧ detect_preamble 4
        ([⟨0,0⟩, ⟨0,0⟩, ⟨1,0⟩, ⟨1,0⟩, ⟨1,0⟩, ⟨1,0⟩, ⟨0,0⟩, ⟨0,0⟩] : List C32) = 2 := by
  set samples : List C32 :=
    [⟨0,0⟩, ⟨0,0⟩, ⟨1,0⟩, ⟨1,0⟩, ⟨1,0⟩, ⟨1,0⟩, ⟨0,0⟩, ⟨0,0⟩] with hs
  have hp0 : windowPower samples 0 4 = 2 := by
    simp [hs, windowPower, C32.normSq]
    norm_num
  have hp1 : windowPower samples 1 4 = 3 := by
    simp [hs, windowPower, C32.normSq]
    norm_num
  have hp2 : windowPower samples 2 4 = 4 := by
    simp [hs, windowPower, C32.normSq]
    norm_num
  have hp3 : windowPower samples 3 4 = 3 := by
    simp [hs, windowPower, C32.normSq]
    norm_num
  have hoffs : scanOffsets samples.length 4 = [0, 1, 2, 3] := by
    rw [hs]; decide
  have ht : 2 ∈ scanOffsets samples.length 4 := by rw [hoffs]; decide
  have hpos : 0 < windowPower samples 2 4 := by rw [hp2]; norm_num
  have hmax : ∀ o ∈ scanOffsets samples.length 4, o ≠ 2 →
      windowPower samples o 4 < windowPower samples 2 4 := by
    intro o ho hne
    rw [hoffs] at ho
    fin_cases ho
    · rw [hp0, hp2]; norm_num
    · rw [hp1, hp2]; norm_num
    · exact absurd rfl hne
    · rw [hp3, hp2]; norm_num
  exact ⟨ht, hpos, detect_preamble_finds_scanned_max 4 samples 2 ht hpos hmax⟩

/-! ## C2: FM discriminator phase wrapping -/

theorem wrapDown_le (x : ℝ) : wrapDown x ≤ Real.pi := by
  induction x using wrapDown.induct with
  | case1 x h ih =>
    rw [wrapDown, dif_pos h]
    exact ih
  | case2 x h =>
    rw [wrapDown, dif_neg h]
    exact not_lt.mp h

theorem wrapUp_ge (x : ℝ) : -Real.pi ≤ wrapUp x := by
  induction x using wrapUp.induct with
  | case1 x h ih =>
    rw [wrapUp, dif_pos h]
    exact ih
  | case2 x h =>
    rw [wrapUp, dif_neg h]
    exact not_lt.mp h

theorem wrapUp_le (x : ℝ) : x ≤ Real.pi → wrapUp x ≤ Real.pi := by
  induction x using wrapUp.induct with
  | case1 x h ih =>
    intro _
    rw [wrapUp, dif_pos h]
    exact ih (by linarith)
  | case2 x h =>
    intro hx
    rw [wrapUp, dif_neg h]
    exact hx

/-- C2 amended: for every IQ sample and every carried previous phase, the
phase difference after the two ±2π correction loops lies in the closed
interval [−π, π].  The loops compare strictly (`> π`, `< −π`), so a
difference of exactly −π is left uncorrected: the interval is closed at
−π, not half-open as claimed. -/
theorem fm_phase_diff_in_closed_interval (c : C32) (prev_phase : ℝ) :
    -Real.pi ≤ fm_phase_diff c prev_phase
    ∧ fm_phase_diff c prev_phase ≤ Real.pi :=
  ⟨wrapUp_ge _, wrapUp_le _ (wrapDown_le _)⟩

/-- C2 counterexample: the sample (1, 0) has phase 0; against a carried
previous phase of exactly π (itself the phase of a sample (−1, 0)) the
raw difference is −π, and both correction loops leave it unchanged, so
the discriminator outputs exactly −π — excluded from the claimed
half-open interval (−π, π]. -/
theorem fm_phase_diff_attains_neg_pi :
    fm_phase_diff ⟨1, 0⟩ Real.pi = -Real.pi
    ∧ ¬ (-Real.pi < fm_phase_diff ⟨1, 0⟩ Real.pi) := by
  have hπ : (0 : ℝ) < Real.pi := Real.pi_pos
  have harg : sampPhase ⟨1, 0⟩ = 0 := by
    have h1 : (⟨1, 0⟩ : ℂ) = 1 := by
      apply Complex.ext <;> simp
    show Complex.arg ⟨1, 0⟩ = 0
    rw [h1, Complex.arg_one]
  have hdown : wrapDown (0 - Real.pi) = -Real.pi := by
    rw [wrapDown, dif_neg (by linarith)]
    ring
  have hup : wrapUp (-Real.pi) = -Real.pi := by
    rw [wrapUp, dif_neg (lt_irrefl _)]
  have hval : fm_phase_diff ⟨1, 0⟩ Real.pi = -Real.pi := by
    rw [fm_phase_diff, harg, hdown, hup]
  exact ⟨hval, by rw [hval]; exact lt_irrefl _⟩

/-! ## C3: bit timing recovery -/

theorem recover_bits_conservation (spb : ℚ) (samples : List ℚ) :
    ∀ st : BitSyncState,
    (recover_bits spb st samples).1.bit_position
      = st.bit_position + samples.length
        - (recover_bits spb st samples).2.length * spb := by
  induction samples with
  | nil =>
    intro st
    simp [recover_bits]
  | cons sample rest ih =>
    intro st
    simp only [recover_bits, recover_bits_step]
    by_cases h : spb ≤ st.bit_position + 1
    · rw [if_pos h]
      simp only [List.length_cons]
      rw [ih ⟨[], st.bit_position + 1 - spb⟩]
      push_cast
      ring
    · rw [if_neg h]
      simp only [List.length_cons]
      rw [ih ⟨st.bit_buffer ++ [sample], st.bit_position + 1⟩]
      push_cast
      ring

theorem recover_bits_invariant (spb : ℚ) (hspb : 1 ≤ spb) (samples : List ℚ) :
    ∀ st : BitSyncState, 0 ≤ st.bit_position → st.bit_position < spb →
    (st.bit_buffer.length : ℚ) ≤ st.bit_position →
    0 ≤ (recover_bits spb st samples).1.bit_position
    ∧ (recover_bits spb st samples).1.bit_position < spb
    ∧ ((recover_bits spb st samples).1.bit_buffer.length : ℚ)
        ≤ (recover_bits spb st samples).1.bit_position
    ∧ ((recover_bits spb st samples).1.bit_buffer = [] → samples ≠ []
        → (recover_bits spb st samples).1.bit_position < 1) := by
  induction samples with
  | nil =>
    intro st h0 h1 h2
    exact ⟨h0, h1, h2, fun _ hne => absurd rfl hne⟩
  | cons sample rest ih =>
    intro st h0 h1 h2
    simp only [recover_bits, recover_bits_step]
    by_cases h : spb ≤ st.bit_position + 1
    · rw [if_pos h]
      have ha : (0 : ℚ) ≤ st.bit_position + 1 - spb := by linarith
      have hb : st.bit_position + 1 - spb < spb := by linarith
      have hc : st.bit_position + 1 - spb < 1 := by linarith
      rcases rest with _ | ⟨s2, rest2⟩
      · simp only [recover_bits]
        exact ⟨ha, hb, by simpa using ha, fun _ _ => hc⟩
      · have hr := ih ⟨[], st.bit_position + 1 - spb⟩ ha hb (by simpa using ha)
        exact ⟨hr.1, hr.2.1, hr.2.2.1, fun hbuf _ => hr.2.2.2 hbuf (by simp)⟩
    · rw [if_neg h]
      have h3 : st.bit_position + 1 < spb := not_le.mp h
      have h4 : (0 : ℚ) ≤ st.bit_position + 1 := by linarith
      have h5 : ((st.bit_buffer ++ [sample]).length : ℚ)
          ≤ st.bit_position + 1 := by
        simp only [List.length_append, List.length_cons, List.length_nil]
        push_cast
        linarith
      rcases rest with _ | ⟨s2, rest2⟩
      · simp only [recover_bits]
        refine ⟨h4, h3, h5, fun hbuf _ => ?_⟩
        exact absurd hbuf (by simp)
      · have hr := ih ⟨st.bit_buffer ++ [sample], st.bit_position + 1⟩ h4 h3 h5
        exact ⟨hr.1, hr.2.1, hr.2.2.1, fun hbuf _ => hr.2.2.2 hbuf (by simp)⟩

/-- C3 amended: assuming `samples_per_bit ≥ 1` (sample rate at least the
bit rate; the constructor accepts rates violating this, for which the
invariant fails — see the counterexample), after any processing run from
the fresh state the fractional bit position lies in
`[0, samples_per_bit)`, the bit buffer holds fewer samples than one bit
period, consumed samples satisfy
`len = bits·samples_per_bit + bit_position` exactly (so over N emitted
bits the consumed samples equal `N × samples_per_bit` to within one bit
period, with no accumulating drift), and whenever the run ends on an
emitted bit the residual position is below one sample. -/
theorem recover_bits_timing (spb : ℚ) (samples : List ℚ) (hspb : 1 ≤ spb) :
    0 ≤ (recover_bits spb ⟨[], 0⟩ samples).1.bit_position
    ∧ (recover_bits spb ⟨[], 0⟩ samples).1.bit_position < spb
    ∧ ((recover_bits spb ⟨[], 0⟩ samples).1.bit_buffer.length : ℚ)
        ≤ (recover_bits spb ⟨[], 0⟩ samples).1.bit_position
    ∧ (samples.length : ℚ)
        = (recover_bits spb ⟨[], 0⟩ samples).2.length * spb
          + (recover_bits spb ⟨[], 0⟩ samples).1.bit_position
    ∧ ((recover_bits spb ⟨[], 0⟩ samples).1.bit_buffer = [] → samples ≠ []
        → (recover_bits spb ⟨[], 0⟩ samples).1.bit_position < 1) := by
  have hinv := recover_bits_invariant spb hspb samples ⟨[], 0⟩
    le_rfl (by dsimp only; linarith) (by simp)
  have hcons := recover_bits_conservation spb samples ⟨[], 0⟩
  refine ⟨hinv.1, hinv.2.1, hinv.2.2.1, ?_, hinv.2.2.2⟩
  simp only at hcons
  linarith [hcons]

/-- C3 counterexample: `GfskDemodulator::new(1, 2, _)` configures
`samples_per_bit = 1/2`; from the fresh state, one processed sample
leaves `bit_position = 1/2`, which is not in `[0, samples_per_bit)` —
the loop subtracts `samples_per_bit` only once per sample. -/
theorem recover_bits_pos_invariant_fails :
    (recover_bits (1/2 : ℚ) ⟨[], 0⟩ [1]).1.bit_position = 1/2
    ∧ ¬ ((recover_bits (1/2 : ℚ) ⟨[], 0⟩ [1]).1.bit_position < 1/2) := by
  constructor <;> norm_num [recover_bits, recover_bits_step]

/-- Witness for C3 (amended): `samples_per_bit = 2` on four samples emits
two bits and returns to a zero fractional position; the conservation
equation holds and the run evaluates concretely. -/
theorem recover_bits_timing_witness :
    ((1 : ℚ) ≤ 2)
    ∧ (([1, -1, 1, 1] : List ℚ).length : ℚ)
        = (recover_bits 2 ⟨[], 0⟩ [1, -1, 1, 1]).2.length * 2
          + (recover_bits 2 ⟨[], 0⟩ [1, -1, 1, 1]).1.bit_position
    ∧ recover_bits (2 : ℚ) ⟨[], 0⟩ [1, -1, 1, 1]
        = (⟨[], 0⟩, [false, true]) :=
  ⟨by norm_num,
   (recover_bits_timing 2 [1, -1, 1, 1] (by norm_num)).2.2.2.1,
   by norm_num [recover_bits, recover_bits_step, Prod.ext_iff]⟩

/-! ## C4: byte assembly round trip -/

theorem byteFromBits_bitsLSB (n : Nat) : ∀ v : Nat,
    byteFromBits (bitsLSB n v) = v % 2 ^ n := by
  induction n with
  | zero => intro v; simp [bitsLSB, byteFromBits, Nat.mod_one]
  | succ n ih =>
    intro v
    show (decide (v % 2 = 1)).toNat + 2 * byteFromBits (bitsLSB n (v / 2))
        = v % 2 ^ (n + 1)
    rw [ih (v / 2)]
    have hd : (decide (v % 2 = 1)).toNat = v % 2 := by
      rcases Nat.mod_two_eq_zero_or_one v with h | h <;> simp [h]
    have h : v % (2 * 2 ^ n) = v % 2 + 2 * (v / 2 % 2 ^ n) := Nat.mod_mul ..
    have hp : (2 : Nat) ^ (n + 1) = 2 * 2 ^ n := by
      rw [pow_succ]; ring
    rw [hd, hp]
    omega

theorem decode_bytes_loop_block (b : Nat) (tl : List Bool) :
    decode_bytes_loop (bitsLSB 8 b ++ tl)
      = (byteFromBits (bitsLSB 8 b) :: (decode_bytes_loop tl).1,
         (decode_bytes_loop tl).2) := rfl

theorem decode_bytes_loop_flat (bs : List Nat) (hb : ∀ x ∈ bs, x < 256) :
    decode_bytes_loop (bs.flatMap (fun x => bitsLSB 8 x)) = (bs, []) := by
  induction bs with
  | nil => rfl
  | cons b rest ih =>
    rw [List.flatMap_cons, decode_bytes_loop_block, byteFromBits_bitsLSB,
      ih (fun x hx => hb x (List.mem_cons_of_mem _ hx)),
      Nat.mod_eq_of_lt (by simpa using hb b (List.mem_cons_self b rest))]

/-- C4 amended: for every non-empty byte sequence, expanding each byte
into 8 LSB-first bits and feeding the bits to `decode_bytes` on a
demodulator with an empty leftover-bit buffer returns `Some` of exactly
the original bytes and leaves the leftover buffer empty.  (For the empty
sequence the call returns the null result `None`, not an empty byte
sequence — see the counterexample.) -/
theorem decode_bytes_roundtrip (bs : List Nat) (hb : ∀ x ∈ bs, x < 256)
    (hne : bs ≠ []) :
    decode_bytes [] (bs.flatMap (fun x => bitsLSB 8 x)) = (some bs, []) := by
  simp only [decode_bytes, List.nil_append, decode_bytes_loop_flat bs hb]
  rcases bs with _ | ⟨b, rest⟩
  · exact absurd rfl hne
  · rfl

/-- C4 counterexample: on the empty byte sequence the round trip feeds no
bits and `decode_bytes` returns the null result `None` — not the original
(empty) byte sequence `Some []` — so the claim fails for that input. -/
theorem decode_bytes_empty_returns_none :
    decode_bytes [] [] = ((none : Option (List Nat)), ([] : List Bool))
    ∧ (none : Option (List Nat)) ≠ some [] :=
  ⟨rfl, by decide⟩

/-- Witness for C4 (amended): bytes `[0x41, 0xFF]` survive the round trip. -/
theorem decode_bytes_roundtrip_witness :
    (∀ x ∈ ([65, 255] : List Nat), x < 256)
    ∧ ([65, 255] : List Nat) ≠ []
    ∧ decode_bytes [] (([65, 255] : List Nat).flatMap (fun x => bitsLSB 8 x))
        = (some [65, 255], []) :=
  ⟨by decide, by decide,
   decode_bytes_roundtrip [65, 255] (by decide) (by decide)⟩

/-! ## C10: the sample queue -/

theorem unbounded_sends_growth (α : Type) (x : α) : ∀ (n : Nat) (q : List α),
    ((List.replicate n x).foldl (fun ch y => (Channel.send ch y).1)
      (⟨none, q⟩ : Channel α)).queue.length = q.length + n := by
  intro n
  induction n with
  | zero => intro q; rfl
  | succ n ih =>
    intro q
    rw [List.replicate_succ, List.foldl_cons]
    have hstep : (Channel.send (⟨none, q⟩ : Channel α) x).1
        = (⟨none, q ++ [x]⟩ : Channel α) := rfl
    rw [hstep, ih (q ++ [x])]
    simp only [List.length_append, List.length_cons, List.length_nil]
    omega

/-- C10 counterexample: the queue connecting the sample-producing thread
to the consumer is created by `crossbeam_channel::unbounded()` in
`RTLSDRController::new` — it has no bounded capacity at all, so the
claimed fixed bounded capacity does not exist. -/
theorem sample_queue_has_no_bounded_capacity :
    sampleChannelCapacity = none ∧ sampleChannelCapacity.isSome = false :=
  ⟨rfl, rfl⟩

/-- C10 amended: the sample queue is unbounded: a producer send always
enqueues and completes immediately (never blocks, never drops a block),
and after `n` sends with no consumer progress the queue holds `n` more
entries — queue memory grows without bound while the consumer falls
behind, instead of exerting backpressure. -/
theorem unbounded_send_never_blocks_grows (α : Type) (q : List α) (x : α) :
    (Channel.send ⟨sampleChannelCapacity, q⟩ x).2 = true
    ∧ (Channel.send ⟨sampleChannelCapacity, q⟩ x).1.queue = q ++ [x]
    ∧ ∀ n : Nat,
        ((List.replicate n x).foldl (fun ch y => (Channel.send ch y).1)
          (⟨sampleChannelCapacity, q⟩ : Channel α)).queue.length
          = q.length + n :=
  ⟨rfl, rfl, fun n => unbounded_sends_growth α x n q⟩
